import Mathlib

/-!
Verification development for the Schnorr zero-knowledge-proof subsystem of the
secure-files repository (src/app/services/zkp.py and the ZKP branch of
src/app/services/auth.py).

Modelling conventions.

The repository code is Python.  Pure string and integer manipulation
(Python int(s, 16), hex(v), str.zfill, binascii.unhexlify, bytes.hex,
the ecdsa util functions number_to_string and string_to_number) is embedded
concretely below.  The third-party elliptic-curve library (python-ecdsa,
curve SECP256k1) and the hash (hashlib.sha256) are not part of the
repository; they are abstracted as parameters: an additive commutative group
of points Point, a generator G, the group order n, coordinate observers
px / py (a point of the x() and y() accessors, which return None exactly on
the point at infinity), a constructor mk x y modelling
Point(curve, x, y, order) (which asserts that the coordinates satisfy the
curve equation, returning none on assertion failure), and an arbitrary
function sha for the digest.  The facts the library provides about the real
curve (G generates a subgroup of order n, canonical coordinates are
non-negative 256-bit integers, rebuilding a finite point from its own
coordinates succeeds) are collected in the hypothesis bundle CurveOK.

Python exceptions are modelled with Except PyError; a try/except that
returns False becomes a match collapsing the error case to false.
-/

set_option maxRecDepth 40000

/-- Kinds of Python exception that the modelled code can raise. -/
inductive PyError : Type
  | valueError
  | assertionError
  | typeError
deriving DecidableEq, Repr

/-- Whitespace accepted (and stripped) by Python int(s, 16) around the number. -/
def isPySpace (c : Char) : Bool :=
  c = ' ' ∨ c = '\t' ∨ c = '\n' ∨ c = '\r' ∨ c = '\x0b' ∨ c = '\x0c'

/-- Value of one hexadecimal digit character, in either case. -/
def hexDigitVal (c : Char) : Option ℕ :=
  if '0' ≤ c ∧ c ≤ '9' then some (c.toNat - 48)
  else if 'a' ≤ c ∧ c ≤ 'f' then some (c.toNat - 87)
  else if 'A' ≤ c ∧ c ≤ 'F' then some (c.toNat - 55)
  else none

/-- Digit characters after the first one in Python int(s, 16): hexadecimal
digits with single underscores allowed between digits. -/
def parseHexCore : ℕ → List Char → Option ℕ
  | acc, [] => some acc
  | acc, c :: rest =>
    if c = '_' then
      match rest with
      | [] => none
      | c2 :: rest2 =>
        match hexDigitVal c2 with
        | some d => parseHexCore (16 * acc + d) rest2
        | none => none
    else
      match hexDigitVal c with
      | some d => parseHexCore (16 * acc + d) rest
      | none => none

/-- Digit part of Python int(s, 16): a nonempty digit sequence with
underscores allowed only between digits. -/
def parseHexDigits : List Char → Option ℕ
  | [] => none
  | c :: rest =>
    match hexDigitVal c with
    | some d => parseHexCore d rest
    | none => none

/-- Drops an optional 0x / 0X radix marker, together with one optional
underscore directly after it, as Python int(s, 16) does. -/
def stripRadix (l : List Char) : List Char :=
  match l with
  | c0 :: c1 :: r =>
    if c0 = '0' ∧ (c1 = 'x' ∨ c1 = 'X') then
      match r with
      | c2 :: r2 => if c2 = '_' then r2 else r
      | [] => r
    else l
  | _ => l

/-- Strips trailing Python whitespace. -/
def dropTrailingSpace (l : List Char) : List Char :=
  (l.reverse.dropWhile isPySpace).reverse

/-- Python int(s, 16) on a character list: optional surrounding whitespace,
optional sign, optional 0x / 0X marker, then hexadecimal digits with
underscores between digits.  Returns none where Python raises ValueError. -/
def pyIntHexChars (cs0 : List Char) : Option ℤ :=
  let cs1 := dropTrailingSpace (cs0.dropWhile isPySpace)
  let sgn : ℤ :=
    match cs1 with
    | c :: _ => if c = '-' then -1 else 1
    | [] => 1
  let cs2 :=
    match cs1 with
    | c :: r => if c = '-' ∨ c = '+' then r else cs1
    | [] => cs1
  match parseHexDigits (stripRadix cs2) with
  | some v => some (sgn * (v : ℤ))
  | none => none

/-- Python int(s, 16). -/
def pyIntHex (s : String) : Option ℤ := pyIntHexChars s.data

/-- Lowercase hexadecimal digit character for a value below 16. -/
def hexDigitChar (d : ℕ) : Char :=
  if d < 10 then Char.ofNat (48 + d) else Char.ofNat (87 + d)

/-- Big-endian base-16 digits of a natural number, empty for 0; the first
argument is recursion fuel (any fuel at least the number works). -/
def hexDigitsAux : ℕ → ℕ → List ℕ
  | 0, _ => []
  | fuel + 1, m => if m = 0 then [] else hexDigitsAux fuel (m / 16) ++ [m % 16]

/-- Big-endian base-16 digits as printed by Python %x formatting: [0] for 0,
no leading zeros otherwise. -/
def hexNatDigits (m : ℕ) : List ℕ :=
  if m = 0 then [0] else hexDigitsAux m m

/-- Characters of Python %x formatting (lowercase, no radix marker). -/
def natToHexChars (m : ℕ) : List Char :=
  (hexNatDigits m).map hexDigitChar

/-- Python hex(v): 0x-prefixed lowercase hexadecimal, with a leading minus
sign for negative values. -/
def py_hex (v : ℤ) : String :=
  if v < 0 then ⟨'-' :: '0' :: 'x' :: natToHexChars (-v).toNat⟩
  else ⟨'0' :: 'x' :: natToHexChars v.toNat⟩

/-- Left zero-padding of a character list to a given width, as str.zfill and
zero-padded %x formatting produce for unsigned values (never truncates). -/
def zfillList (w : ℕ) (l : List Char) : List Char :=
  List.replicate (w - l.length) '0' ++ l

/-- Characters produced by Python "%064x" % v.  For negative v the sign is
included (and the digits are padded to one character less). -/
def percentX64 (v : ℤ) : List Char :=
  if v < 0 then '-' :: zfillList 63 (natToHexChars (-v).toNat)
  else zfillList 64 (natToHexChars v.toNat)

/-- binascii.unhexlify on a character list: pairs of hexadecimal digits to
bytes; fails on odd length or any non-digit character. -/
def unhexChars : List Char → Option (List ℕ)
  | [] => some []
  | c1 :: c2 :: rest =>
    match hexDigitVal c1, hexDigitVal c2, unhexChars rest with
    | some d1, some d2, some bs => some ((16 * d1 + d2) :: bs)
    | _, _, _ => none
  | _ => none

/-- bytes.hex(): two lowercase hexadecimal characters per byte. -/
def bytes_hex (bs : List ℕ) : List Char :=
  bs.flatMap (fun b => [hexDigitChar (b / 16), hexDigitChar (b % 16)])

/-- Fixed-width big-endian base-16 digit string of a natural number. -/
def beDigits : ℕ → ℕ → List ℕ
  | 0, _ => []
  | w + 1, m => beDigits w (m / 16) ++ [m % 16]

/-- Fixed-width big-endian byte string of a natural number. -/
def beBytes : ℕ → ℕ → List ℕ
  | 0, _ => []
  | w + 1, m => beBytes w (m / 256) ++ [m % 256]

/-- ecdsa.util.number_to_string(v, order) for the 256-bit SECP256k1 order:
formats with "%064x", unhexlifies (ValueError on the sign character of a
negative input), and asserts the result is exactly 32 bytes (AssertionError
for values of 2^256 or more). -/
def number_to_string (v : ℤ) : Except PyError (List ℕ) :=
  match unhexChars (percentX64 v) with
  | none => .error .valueError
  | some bs => if bs.length = 32 then .ok bs else .error .assertionError

/-- ecdsa.util.string_to_number: big-endian byte string to integer. -/
def string_to_number (bs : List ℕ) : ℕ :=
  bs.foldl (fun a b => 256 * a + b) 0

/-- UTF-8 bytes of one character. -/
def charUtf8 (c : Char) : List ℕ :=
  let v := c.toNat
  if v < 128 then [v]
  else if v < 2048 then [192 + v / 64, 128 + v % 64]
  else if v < 65536 then [224 + v / 4096, 128 + v / 64 % 64, 128 + v % 64]
  else [240 + v / 262144, 128 + v / 4096 % 64, 128 + v / 64 % 64, 128 + v % 64]

/-- str.encode of Python: UTF-8 bytes of a string. -/
def utf8Bytes (s : String) : List ℕ :=
  s.data.flatMap charUtf8

/-- ZKP proof structure for Schnorr proofs (dataclass ZKPProofData). -/
structure ZKPProofData : Type where
  commitment_x : String
  commitment_y : String
  response : String
  challenge : String
  message : String
deriving DecidableEq, Repr

/-- Lifts Python int(s, 16) into the exception monad: failure is ValueError. -/
def optE (o : Option ℤ) : Except PyError ℤ :=
  match o with
  | some v => .ok v
  | none => .error .valueError

/-- Lifts the Point constructor into the exception monad: the on-curve
assertion failure is AssertionError. -/
def mkE {Point : Type} (mk : ℤ → ℤ → Option Point) (x y : ℤ) :
    Except PyError Point :=
  match mk x y with
  | some P => .ok P
  | none => .error .assertionError

/-- Reads a coordinate observer; hex()/number_to_string on the None
coordinate of the point at infinity raises TypeError. -/
def coordE {Point : Type} (f : Point → Option ℤ) (P : Point) :
    Except PyError ℤ :=
  match f P with
  | some v => .ok v
  | none => .error .typeError

/-- Scalar multiplication as python-ecdsa Point.__mul__ performs it on a
point carrying the group order: the scalar is first reduced modulo n. -/
def smulOrd {Point : Type} [AddCommGroup Point] (n : ℕ) (e : ℤ) (P : Point) :
    Point :=
  (e % (n : ℤ)).toNat • P

/-- ZKPService._compute_challenge, taking the four raw coordinates (the x()
and y() values of the commitment and public-key points) and the message:
sha256 over the number_to_string serializations and the UTF-8 message bytes,
interpreted big-endian and reduced modulo the order. -/
def compute_challenge (sha : List ℕ → List ℕ) (n : ℕ)
    (cx cy pkx pky : ℤ) (message : String) : Except PyError ℕ := do
  let b1 ← number_to_string cx
  let b2 ← number_to_string cy
  let b3 ← number_to_string pkx
  let b4 ← number_to_string pky
  return string_to_number (sha (b1 ++ b2 ++ b3 ++ b4 ++ utf8Bytes message)) % n

/-- Head test hex_str.startswith("04") of ZKPService._hex_to_point. -/
def strStartsWith04 (s : String) : Bool :=
  match s.data with
  | c0 :: c1 :: _ => c0 = '0' ∧ c1 = '4'
  | _ => false

/-- ZKPService._hex_to_point: checks the 04 tag and the 130-character
length (ValueError otherwise), parses the two 64-character coordinate
slices with int(_, 16), and builds the point (AssertionError if the
coordinates are not on the curve).  Returns the raw parsed coordinates
together with the point, since Point stores and returns them unreduced. -/
def hex_to_point {Point : Type} (mk : ℤ → ℤ → Option Point) (s : String) :
    Except PyError (ℤ × ℤ × Point) :=
  if ¬ strStartsWith04 s = true ∨ s.data.length ≠ 130 then .error .valueError
  else
    let coords := s.data.drop 2
    match pyIntHexChars (coords.take 64), pyIntHexChars (coords.drop 64) with
    | some x, some y =>
      match mk x y with
      | some P => .ok (x, y, P)
      | none => .error .assertionError
    | _, _ => .error .valueError

/-- ZKPService._point_to_hex: "04" followed by the zfill(64) of the hex of
the 32-byte number_to_string serialization of each coordinate.  TypeError on
the point at infinity (whose x() is None). -/
def point_to_hex {Point : Type} (px py : Point → Option ℤ) (P : Point) :
    Except PyError String := do
  let x ← coordE px P
  let y ← coordE py P
  let xb ← number_to_string x
  let yb ← number_to_string y
  return ⟨'0' :: '4' :: (zfillList 64 (bytes_hex xb) ++ zfillList 64 (bytes_hex yb))⟩

/-- ZKPService.verify_proof without the surrounding try/except: each step
that can raise is explicit in the exception monad. -/
def verify_proofE {Point : Type} [AddCommGroup Point] (G : Point) (n : ℕ)
    (px py : Point → Option ℤ) (mk : ℤ → ℤ → Option Point)
    (sha : List ℕ → List ℕ) (pd : ZKPProofData) (public_key_hex : String) :
    Except PyError Bool := do
  let cx ← optE (pyIntHex pd.commitment_x)
  let cy ← optE (pyIntHex pd.commitment_y)
  let commitment ← mkE mk cx cy
  let response ← optE (pyIntHex pd.response)
  let challenge ← optE (pyIntHex pd.challenge)
  let pkt ← hex_to_point mk public_key_hex
  let expected ← compute_challenge sha n cx cy pkt.1 pkt.2.1 pd.message
  if challenge ≠ (expected : ℤ) then
    return false
  else
    let left := smulOrd n response G
    let right := commitment + smulOrd n challenge pkt.2.2
    if px left ≠ px right ∨ py left ≠ py right then
      return false
    else
      return true

/-- ZKPService.verify_proof: the try/except Exception wrapper collapses
every raised error to the return value False. -/
def verify_proof {Point : Type} [AddCommGroup Point] (G : Point) (n : ℕ)
    (px py : Point → Option ℤ) (mk : ℤ → ℤ → Option Point)
    (sha : List ℕ → List ℕ) (pd : ZKPProofData) (public_key_hex : String) :
    Bool :=
  match verify_proofE G n px py mk sha pd public_key_hex with
  | .ok b => b
  | .error _ => false

/-- ZKPService.create_proof, with the draw of secrets.randbelow(order) made
an explicit argument nonce.  The commitment and public key are computed by
Point.__mul__ (scalar reduced modulo the order); the challenge is recomputed
unless an override string is supplied (then parsed with int(_, 16)); the
response is (nonce + challenge * private_key) % order; the proof fields are
produced with Python hex().  Reading a coordinate of the point at infinity
raises TypeError. -/
def create_proofE {Point : Type} [AddCommGroup Point] (G : Point) (n : ℕ)
    (px py : Point → Option ℤ) (sha : List ℕ → List ℕ)
    (private_key : ℤ) (message : String) (nonce : ℕ)
    (challengeO : Option String) : Except PyError ZKPProofData := do
  let commitment := smulOrd n (nonce : ℤ) G
  let public_key := smulOrd n private_key G
  let challenge_hash : ℤ ←
    match challengeO with
    | none => do
      let cx ← coordE px commitment
      let cy ← coordE py commitment
      let pkx ← coordE px public_key
      let pky ← coordE py public_key
      let e ← compute_challenge sha n cx cy pkx pky message
      pure (e : ℤ)
    | some c => optE (pyIntHex c)
  let response := ((nonce : ℤ) + challenge_hash * private_key) % (n : ℤ)
  let cx ← coordE px commitment
  let cy ← coordE py commitment
  return ⟨py_hex cx, py_hex cy, py_hex response, py_hex challenge_hash, message⟩

/-- ZKPService.generate_keypair, with the draw of secrets.randbelow(order)
made an explicit argument: the private key is the draw itself, the public
key is draw * G, and the hex form is produced by _point_to_hex (raising
TypeError when the public key is the point at infinity). -/
def generate_keypairE {Point : Type} [AddCommGroup Point] (G : Point) (n : ℕ)
    (px py : Point → Option ℤ) (draw : ℕ) :
    Except PyError (ℕ × Point × String) := do
  let public_key := smulOrd n (draw : ℤ) G
  let hx ← point_to_hex px py public_key
  return (draw, public_key, hx)

/-- Facts the python-ecdsa SECP256k1 layer provides about the abstracted
curve group: the order n exceeds 1, G generates a subgroup of order exactly
n, the coordinate observers return None exactly on the point at infinity,
canonical coordinates are non-negative 256-bit integers, and a finite point
rebuilt from its own coordinates is the same point. -/
structure CurveOK {Point : Type} [AddCommGroup Point] (G : Point) (n : ℕ)
    (px py : Point → Option ℤ) (mk : ℤ → ℤ → Option Point) : Prop where
  one_lt_n : 1 < n
  n_smul : n • G = 0
  ord_G : ∀ k : ℕ, 0 < k → k < n → k • G ≠ 0
  px_eq_none : ∀ P : Point, px P = none ↔ P = 0
  py_eq_none : ∀ P : Point, py P = none ↔ P = 0
  px_bound : ∀ (P : Point) (x : ℤ), px P = some x → 0 ≤ x ∧ x < 2 ^ 256
  py_bound : ∀ (P : Point) (y : ℤ), py P = some y → 0 ≤ y ∧ y < 2 ^ 256
  mk_canon : ∀ (P : Point) (x y : ℤ), px P = some x → py P = some y →
    mk x y = some P

/-- Shape of the Python proof dictionary reaching
AuthService.verify_zkp_proof: the five Schnorr fields, the two legacy
arrays, and a flag recording whether any other key is present (relevant to
the kwargs expansion ZKPProofData(**legacy_proof)). -/
structure PyDict : Type where
  commitment_x : Option String
  commitment_y : Option String
  response : Option String
  challenge : Option String
  message : Option String
  proof : Option (List String)
  public_signals : Option (List String)
  extraKeys : Bool
deriving DecidableEq, Repr

/-- ZKPProofData(**d): succeeds exactly when the keys of d are precisely the
five dataclass fields (a missing field or any extra key raises TypeError,
which parse_legacy_proof catches). -/
def zkpProofDataOfKwargs (d : PyDict) : Option ZKPProofData :=
  match d.commitment_x, d.commitment_y, d.response, d.challenge, d.message with
  | some a, some b, some c, some e, some f =>
    if d.proof = none ∧ d.public_signals = none ∧ d.extraKeys = false then
      some ⟨a, b, c, e, f⟩
    else none
  | _, _, _, _, _ => none

/-- ZKPService.parse_legacy_proof: a dictionary containing commitment_x is
expanded as keyword arguments; otherwise the positional legacy mapping
applies whenever both arrays have at least two elements (the inner
length > 1 guards of the source are implied by that bound), and the result
carries the fixed message "legacy_format".  Any failure yields None. -/
def parse_legacy_proof (d : PyDict) : Option ZKPProofData :=
  if d.commitment_x.isSome then zkpProofDataOfKwargs d
  else
    match d.proof.getD [], d.public_signals.getD [] with
    | a0 :: a1 :: _, s0 :: s1 :: _ => some ⟨a0, a1, s0, s1, "legacy_format"⟩
    | _, _ => none

/-- AuthService.verify_zkp_proof: if all five Schnorr fields are present the
proof is verified cryptographically with ZKPService.verify_proof; otherwise
the legacy adapter runs, and a parsed legacy proof is accepted after purely
structural checks (both arrays present and non-empty). -/
def verify_zkp_proof {Point : Type} [AddCommGroup Point] (G : Point) (n : ℕ)
    (px py : Point → Option ℤ) (mk : ℤ → ℤ → Option Point)
    (sha : List ℕ → List ℕ) (d : PyDict) (public_key : String) : Bool :=
  match d.commitment_x, d.commitment_y, d.response, d.challenge, d.message with
  | some a, some b, some c, some e, some f =>
    verify_proof G n px py mk sha ⟨a, b, c, e, f⟩ public_key
  | _, _, _, _, _ =>
    match parse_legacy_proof d with
    | some lp =>
      if lp.message = "legacy_format" then
        if d.proof.isSome ∧ d.public_signals.isSome then
          if d.proof.getD [] ≠ [] ∧ d.public_signals.getD [] ≠ [] then true
          else false
        else false
      else false
    | none => false

/-- Concrete instance of the abstracted curve layer used to witness the
hypotheses of the theorems below: the additive group ZMod 5 with generator
1, order 5, x-coordinate the canonical representative (None at 0),
y-coordinate 0 (None at 0), and the point rebuilt from coordinates x in
[1, 4] with y = 0. -/
def pxT (P : ZMod 5) : Option ℤ :=
  if P = 0 then none else some (P.val : ℤ)

/-- y-coordinate observer of the concrete instance. -/
def pyT (P : ZMod 5) : Option ℤ :=
  if P = 0 then none else some 0

/-- Point constructor of the concrete instance. -/
def mkT (x y : ℤ) : Option (ZMod 5) :=
  if 0 < x ∧ x < 5 ∧ y = 0 then some ((x.toNat : ℕ) : ZMod 5) else none

/-- Hash of the concrete instance (the empty digest). -/
def shaT (_ : List ℕ) : List ℕ := []

/-- Properties of the lowercase digit characters used by all the hex
printers: value roundtrip, and distinctness from the characters that the
parser treats specially. -/
theorem hexDigitChar_spec : ∀ d : ℕ, d < 16 →
    hexDigitVal (hexDigitChar d) = some d ∧
    hexDigitChar d ≠ '_' ∧ hexDigitChar d ≠ '-' ∧ hexDigitChar d ≠ '+' ∧
    hexDigitChar d ≠ 'x' ∧ hexDigitChar d ≠ 'X' ∧
    isPySpace (hexDigitChar d) = false := by decide

/-- Characters other than whitespace survive List.dropWhile isPySpace. -/
theorem dropWhile_isPySpace_eq_self (l : List Char)
    (h : ∀ c ∈ l, isPySpace c = false) : l.dropWhile isPySpace = l := by
  cases l with
  | nil => rfl
  | cons c cs => simp [List.dropWhile_cons, h c (by simp)]

/-- Lists without whitespace survive dropTrailingSpace. -/
theorem dropTrailingSpace_eq_self (l : List Char)
    (h : ∀ c ∈ l, isPySpace c = false) : dropTrailingSpace l = l := by
  unfold dropTrailingSpace
  rw [dropWhile_isPySpace_eq_self]
  · exact l.reverse_reverse
  · intro c hc
    exact h c (List.mem_reverse.mp hc)

/-- Every digit produced by hexDigitsAux is below 16. -/
theorem hexDigitsAux_lt : ∀ (fuel m : ℕ), ∀ d ∈ hexDigitsAux fuel m, d < 16 := by
  intro fuel
  induction fuel with
  | zero => intro m d hd; simp [hexDigitsAux] at hd
  | succ f ih =>
    intro m d hd
    by_cases hm : m = 0
    · simp [hexDigitsAux, hm] at hd
    · simp only [hexDigitsAux, if_neg hm, List.mem_append, List.mem_singleton] at hd
      rcases hd with hd | hd
      · exact ih _ d hd
      · omega

/-- Accumulator semantics of the digits produced by hexDigitsAux. -/
theorem hexDigitsAux_foldl : ∀ (fuel m : ℕ), m ≤ fuel → ∀ acc : ℕ,
    (hexDigitsAux fuel m).foldl (fun a d => 16 * a + d) acc =
      acc * 16 ^ (hexDigitsAux fuel m).length + m := by
  intro fuel
  induction fuel with
  | zero => intro m hm acc; interval_cases m; simp [hexDigitsAux]
  | succ f ih =>
    intro m hm acc
    by_cases hm0 : m = 0
    · simp [hexDigitsAux, hm0]
    · have hdiv : m / 16 ≤ f := by omega
      simp only [hexDigitsAux, if_neg hm0, List.foldl_append, List.length_append,
        List.foldl_cons, List.foldl_nil, List.length_cons, List.length_nil]
      rw [ih _ hdiv]
      rw [pow_succ]
      have : 16 * (acc * (16 ^ (hexDigitsAux f (m / 16)).length) + m / 16) + m % 16 =
          acc * (16 ^ (hexDigitsAux f (m / 16)).length * 16) + (16 * (m / 16) + m % 16) := by
        ring
      rw [this]
      congr 1
      omega

/-- Length bound on the digits produced by hexDigitsAux. -/
theorem hexDigitsAux_length_le : ∀ (w fuel m : ℕ), m ≤ fuel → m < 16 ^ w →
    (hexDigitsAux fuel m).length ≤ w := by
  intro w
  induction w with
  | zero =>
    intro fuel m hm hw
    have : m = 0 := by simpa using hw
    subst this
    cases fuel <;> simp [hexDigitsAux]
  | succ w ih =>
    intro fuel m hm hw
    by_cases hm0 : m = 0
    · subst hm0; cases fuel <;> simp [hexDigitsAux]
    · cases fuel with
      | zero => omega
      | succ f =>
        simp only [hexDigitsAux, if_neg hm0, List.length_append, List.length_cons,
          List.length_nil]
        have h1 : m / 16 ≤ f := by omega
        have h2 : m / 16 < 16 ^ w := by
          rw [pow_succ] at hw
          omega
        have := ih f (m / 16) h1 h2
        omega

/-- beDigits of zero is all zeros. -/
theorem beDigits_zero : ∀ w : ℕ, beDigits w 0 = List.replicate w 0 := by
  intro w
  induction w with
  | zero => rfl
  | succ w ih =>
    simp only [beDigits, Nat.zero_div, Nat.zero_mod, ih]
    rw [List.replicate_succ']

/-- Padding the hexDigitsAux digits with leading zeros to a sufficient width
yields the fixed-width big-endian digits. -/
theorem hexDigitsAux_pad : ∀ (w fuel m : ℕ), m ≤ fuel → m < 16 ^ w →
    List.replicate (w - (hexDigitsAux fuel m).length) 0 ++ hexDigitsAux fuel m =
      beDigits w m := by
  intro w
  induction w with
  | zero =>
    intro fuel m hm hw
    have : m = 0 := by simpa using hw
    subst this
    cases fuel <;> simp [hexDigitsAux, beDigits]
  | succ w ih =>
    intro fuel m hm hw
    by_cases hm0 : m = 0
    · subst hm0
      rw [beDigits_zero]
      cases fuel <;> simp [hexDigitsAux]
    · cases fuel with
      | zero => omega
      | succ f =>
        have h1 : m / 16 ≤ f := by omega
        have h2 : m / 16 < 16 ^ w := by
          rw [pow_succ] at hw
          omega
        simp only [hexDigitsAux, if_neg hm0, List.length_append, List.length_cons,
          List.length_nil, beDigits]
        rw [← ih f (m / 16) h1 h2, ← List.append_assoc]
        have hlen : w + 1 - ((hexDigitsAux f (m / 16)).length + 1) =
            w - (hexDigitsAux f (m / 16)).length := by omega
        rw [hlen]

/-- Digits of the %x printing are below 16. -/
theorem hexNatDigits_lt (m : ℕ) : ∀ d ∈ hexNatDigits m, d < 16 := by
  intro d hd
  unfold hexNatDigits at hd
  by_cases hm : m = 0
  · simp [hm] at hd
    omega
  · rw [if_neg hm] at hd
    exact hexDigitsAux_lt m m d hd

/-- The %x printing always emits at least one digit. -/
theorem hexNatDigits_ne_nil (m : ℕ) : hexNatDigits m ≠ [] := by
  unfold hexNatDigits
  by_cases hm : m = 0
  · simp [hm]
  · rw [if_neg hm]
    cases m with
    | zero => omega
    | succ k =>
      simp only [hexDigitsAux, if_neg hm]
      simp

/-- Value of the %x printing. -/
theorem hexNatDigits_foldl (m : ℕ) :
    (hexNatDigits m).foldl (fun a d => 16 * a + d) 0 = m := by
  unfold hexNatDigits
  by_cases hm : m = 0
  · simp [hm]
  · rw [if_neg hm, hexDigitsAux_foldl m m le_rfl 0]
    simp

/-- Zero-padding the %x printing to a sufficient positive width yields the
fixed-width big-endian digits. -/
theorem hexNatDigits_pad (w m : ℕ) (hw : 0 < w) (h : m < 16 ^ w) :
    List.replicate (w - (hexNatDigits m).length) 0 ++ hexNatDigits m =
      beDigits w m := by
  unfold hexNatDigits
  by_cases hm : m = 0
  · subst hm
    rw [if_pos rfl, beDigits_zero]
    obtain ⟨w', rfl⟩ : ∃ w', w = w' + 1 := ⟨w - 1, by omega⟩
    rw [List.replicate_succ']
    simp
  · rw [if_neg hm]
    exact hexDigitsAux_pad w m m le_rfl h

/-- Length of the fixed-width digits. -/
theorem beDigits_length : ∀ (w m : ℕ), (beDigits w m).length = w := by
  intro w
  induction w with
  | zero => intro m; rfl
  | succ w ih => intro m; simp [beDigits, ih]

/-- Length of the fixed-width bytes. -/
theorem beBytes_length : ∀ (w m : ℕ), (beBytes w m).length = w := by
  intro w
  induction w with
  | zero => intro m; rfl
  | succ w ih => intro m; simp [beBytes, ih]

/-- The fixed-width digits are below 16. -/
theorem beDigits_lt : ∀ (w m : ℕ), ∀ d ∈ beDigits w m, d < 16 := by
  intro w
  induction w with
  | zero => intro m d hd; simp [beDigits] at hd
  | succ w ih =>
    intro m d hd
    simp only [beDigits, List.mem_append, List.mem_singleton] at hd
    rcases hd with hd | hd
    · exact ih _ d hd
    · omega

/-- Value of the fixed-width digits. -/
theorem beDigits_foldl : ∀ (w m acc : ℕ), m < 16 ^ w →
    (beDigits w m).foldl (fun a d => 16 * a + d) acc = acc * 16 ^ w + m := by
  intro w
  induction w with
  | zero =>
    intro m acc hm
    have : m = 0 := by simpa using hm
    subst this
    simp [beDigits]
  | succ w ih =>
    intro m acc hm
    have h2 : m / 16 < 16 ^ w := by
      rw [pow_succ] at hm
      omega
    simp only [beDigits, List.foldl_append, List.foldl_cons, List.foldl_nil]
    rw [ih (m / 16) acc h2, pow_succ]
    have : 16 * (acc * 16 ^ w + m / 16) + m % 16 =
        acc * (16 ^ w * 16) + (16 * (m / 16) + m % 16) := by ring
    rw [this]
    congr 1
    omega

/-- Head decomposition of the fixed-width digits. -/
theorem beDigits_succ_front : ∀ (w m : ℕ),
    beDigits (w + 1) m = (m / 16 ^ w % 16) :: beDigits w m := by
  intro w
  induction w with
  | zero => intro m; simp [beDigits]
  | succ w ih =>
    intro m
    have step : beDigits (w + 1 + 1) m = beDigits (w + 1) (m / 16) ++ [m % 16] := rfl
    rw [step, ih (m / 16)]
    have step2 : beDigits (w + 1) m = beDigits w (m / 16) ++ [m % 16] := rfl
    rw [step2]
    simp only [List.cons_append]
    congr 2
    rw [Nat.div_div_eq_div_mul, ← pow_succ']

/-- Head decomposition of the fixed-width bytes. -/
theorem beBytes_succ_front : ∀ (w m : ℕ),
    beBytes (w + 1) m = (m / 256 ^ w % 256) :: beBytes w m := by
  intro w
  induction w with
  | zero => intro m; simp [beBytes]
  | succ w ih =>
    intro m
    have step : beBytes (w + 1 + 1) m = beBytes (w + 1) (m / 256) ++ [m % 256] := rfl
    rw [step, ih (m / 256)]
    have step2 : beBytes (w + 1) m = beBytes w (m / 256) ++ [m % 256] := rfl
    rw [step2]
    simp only [List.cons_append]
    congr 2
    rw [Nat.div_div_eq_div_mul, ← pow_succ']

/-- Unhexlifying the fixed-width hexadecimal digit characters of a number
yields its fixed-width bytes. -/
theorem unhexChars_beDigits : ∀ (w m : ℕ),
    unhexChars ((beDigits (2 * w) m).map hexDigitChar) = some (beBytes w m) := by
  intro w
  induction w with
  | zero => intro m; rfl
  | succ w ih =>
    intro m
    have h2 : 2 * (w + 1) = 2 * w + 1 + 1 := by ring
    rw [h2, beDigits_succ_front, beDigits_succ_front]
    have hd1 := (hexDigitChar_spec (m / 16 ^ (2 * w + 1) % 16) (by omega)).1
    have hd2 := (hexDigitChar_spec (m / 16 ^ (2 * w) % 16) (by omega)).1
    simp only [List.map_cons, unhexChars, hd1, hd2, ih m]
    rw [beBytes_succ_front]
    congr 2
    have e1 : (16 : ℕ) ^ (2 * w + 1) = 16 ^ (2 * w) * 16 := pow_succ 16 (2 * w)
    have e2 : (16 : ℕ) ^ (2 * w) = 256 ^ w := by
      rw [show (256 : ℕ) = 16 ^ 2 by norm_num, ← pow_mul, mul_comm]
    rw [e1, e2, ← Nat.div_div_eq_div_mul]
    omega

/-- bytes.hex of the fixed-width bytes is the fixed-width digit string. -/
theorem bytes_hex_beBytes : ∀ (w m : ℕ),
    bytes_hex (beBytes w m) = (beDigits (2 * w) m).map hexDigitChar := by
  intro w
  induction w with
  | zero => intro m; rfl
  | succ w ih =>
    intro m
    have h2 : 2 * (w + 1) = 2 * w + 1 + 1 := by ring
    rw [h2, beDigits_succ_front, beDigits_succ_front, beBytes_succ_front]
    have hcons : ∀ (b : ℕ) (bs : List ℕ), bytes_hex (b :: bs) =
        hexDigitChar (b / 16) :: hexDigitChar (b % 16) :: bytes_hex bs := by
      intro b bs
      rfl
    rw [hcons, ih m]
    simp only [List.map_cons]
    have e1 : (16 : ℕ) ^ (2 * w + 1) = 16 ^ (2 * w) * 16 := pow_succ 16 (2 * w)
    have e2 : (16 : ℕ) ^ (2 * w) = 256 ^ w := by
      rw [show (256 : ℕ) = 16 ^ 2 by norm_num, ← pow_mul, mul_comm]
    have a1 : m / 16 ^ (2 * w + 1) % 16 = m / 256 ^ w % 256 / 16 := by
      rw [e1, e2, ← Nat.div_div_eq_div_mul]
      omega
    have a2 : m / 16 ^ (2 * w) % 16 = m / 256 ^ w % 256 % 16 := by
      rw [e2]
      omega
    rw [a1, a2]

/-- Unfolding equation for the digit-sequence parser on a cons cell whose
head is not an underscore. -/
theorem parseHexCore_cons_ne (acc : ℕ) (c : Char) (cs : List Char)
    (hc : c ≠ '_') :
    parseHexCore acc (c :: cs) =
      match hexDigitVal c with
      | some d => parseHexCore (16 * acc + d) cs
      | none => none := by
  cases cs with
  | nil => rw [parseHexCore.eq_2, if_neg hc]
  | cons c2 rest2 => rw [parseHexCore.eq_3, if_neg hc]

/-- The digit-sequence parser on a pure digit-character list accumulates the
base-16 value. -/
theorem parseHexCore_digits : ∀ (ds : List ℕ) (acc : ℕ), (∀ d ∈ ds, d < 16) →
    parseHexCore acc (ds.map hexDigitChar) =
      some (ds.foldl (fun a d => 16 * a + d) acc) := by
  intro ds
  induction ds with
  | nil => intro acc h; rfl
  | cons d rest ih =>
    intro acc h
    have hd := hexDigitChar_spec d (h d (by simp))
    rw [List.map_cons, parseHexCore_cons_ne _ _ _ hd.2.1, hd.1, List.foldl_cons]
    exact ih (16 * acc + d) (fun x hx => h x (by simp [hx]))

/-- The digit-part parser on a nonempty pure digit-character list returns
the base-16 value. -/
theorem parseHexDigits_digits (ds : List ℕ) (hne : ds ≠ [])
    (h : ∀ d ∈ ds, d < 16) :
    parseHexDigits (ds.map hexDigitChar) =
      some (ds.foldl (fun a d => 16 * a + d) 0) := by
  cases ds with
  | nil => exact absurd rfl hne
  | cons d rest =>
    have hd := hexDigitChar_spec d (h d (by simp))
    simp only [List.map_cons, parseHexDigits, hd.1, List.foldl_cons]
    have : 16 * 0 + d = d := by omega
    rw [this]
    exact parseHexCore_digits rest d (fun x hx => h x (by simp [hx]))

/-- Python int(_, 16) on a nonempty pure digit-character list returns the
base-16 value. -/
theorem pyIntHexChars_digits (ds : List ℕ) (hne : ds ≠ [])
    (h : ∀ d ∈ ds, d < 16) :
    pyIntHexChars (ds.map hexDigitChar) =
      some ((ds.foldl (fun a d => 16 * a + d) 0 : ℕ) : ℤ) := by
  have hns : ∀ c ∈ ds.map hexDigitChar, isPySpace c = false := by
    intro c hc
    rw [List.mem_map] at hc
    obtain ⟨d, hd, rfl⟩ := hc
    exact (hexDigitChar_spec d (h d hd)).2.2.2.2.2.2
  cases ds with
  | nil => exact absurd rfl hne
  | cons d rest =>
    have hd := hexDigitChar_spec d (h d (by simp))
    simp only [pyIntHexChars, List.map_cons]
    rw [dropWhile_isPySpace_eq_self _ (by simpa using hns),
      dropTrailingSpace_eq_self _ (by simpa using hns)]
    simp only [if_neg hd.2.2.1]
    rw [if_neg (by
      push_neg
      exact ⟨hd.2.2.1, hd.2.2.2.1⟩)]
    have hstrip : stripRadix (hexDigitChar d :: List.map hexDigitChar rest) =
        hexDigitChar d :: List.map hexDigitChar rest := by
      cases rest with
      | nil => rfl
      | cons d2 rest2 =>
        have hd2 := hexDigitChar_spec d2 (h d2 (by simp))
        simp only [List.map_cons, stripRadix]
        rw [if_neg (by
          push_neg
          intro _
          exact ⟨hd2.2.2.2.2.1, hd2.2.2.2.2.2.1⟩)]
    rw [hstrip]
    have := parseHexDigits_digits (d :: rest) (by simp) h
    simp only [List.map_cons] at this
    rw [this]
    simp

/-- Python int(_, 16) inverts Python hex() on non-negative integers. -/
theorem pyIntHex_py_hex (v : ℤ) (h0 : 0 ≤ v) : pyIntHex (py_hex v) = some v := by
  rw [py_hex, if_neg (by omega)]
  show pyIntHexChars ('0' :: 'x' :: natToHexChars v.toNat) = some v
  obtain ⟨d, rest, hds⟩ : ∃ d rest, hexNatDigits v.toNat = d :: rest := by
    cases hcase : hexNatDigits v.toNat with
    | nil => exact absurd hcase (hexNatDigits_ne_nil _)
    | cons d rest => exact ⟨d, rest, rfl⟩
  have hlt : ∀ d ∈ hexNatDigits v.toNat, d < 16 := hexNatDigits_lt v.toNat
  have hd := hexDigitChar_spec d (hlt d (by rw [hds]; simp))
  have hns : ∀ c ∈ '0' :: 'x' :: natToHexChars v.toNat, isPySpace c = false := by
    intro c hc
    rcases List.mem_cons.mp hc with rfl | hc2
    · decide
    rcases List.mem_cons.mp hc2 with rfl | hc3
    · decide
    rw [natToHexChars] at hc3
    obtain ⟨e, he, rfl⟩ := List.mem_map.mp hc3
    exact (hexDigitChar_spec e (hlt e he)).2.2.2.2.2.2
  simp only [pyIntHexChars]
  rw [dropWhile_isPySpace_eq_self _ hns, dropTrailingSpace_eq_self _ hns]
  simp only [if_neg (show ¬ ('0' : Char) = '-' by decide),
    if_neg (show ¬ (('0' : Char) = '-' ∨ ('0' : Char) = '+') by decide)]
  have hstrip : stripRadix ('0' :: 'x' :: natToHexChars v.toNat) =
      natToHexChars v.toNat := by
    rw [natToHexChars, hds, List.map_cons]
    show (if hexDigitChar d = '_' then List.map hexDigitChar rest
        else hexDigitChar d :: List.map hexDigitChar rest) =
      hexDigitChar d :: List.map hexDigitChar rest
    rw [if_neg hd.2.1]
  rw [hstrip]
  rw [natToHexChars, parseHexDigits_digits _ (by rw [hds]; simp) hlt,
    hexNatDigits_foldl]
  simp [Int.toNat_of_nonneg h0]

/-- number_to_string on a non-negative 256-bit value is the fixed-width
32-byte big-endian serialization. -/
theorem number_to_string_eq (v : ℤ) (h0 : 0 ≤ v) (h : v < 2 ^ 256) :
    number_to_string v = .ok (beBytes 32 v.toNat) := by
  have hm : v.toNat < 16 ^ 64 := by
    have h1 : (16 : ℕ) ^ 64 = 2 ^ 256 := by
      rw [show (16 : ℕ) = 2 ^ 4 by norm_num, ← pow_mul]
    rw [h1]
    omega
  have hnum : percentX64 v = (beDigits 64 v.toNat).map hexDigitChar := by
    rw [percentX64, if_neg (by omega), zfillList]
    have hzc : ('0' : Char) = hexDigitChar 0 := by decide
    rw [natToHexChars, List.length_map]
    rw [hzc, ← List.map_replicate, ← List.map_append]
    rw [hexNatDigits_pad 64 v.toNat (by norm_num) hm]
  rw [number_to_string, hnum]
  have h64 := unhexChars_beDigits 32 v.toNat
  norm_num at h64
  rw [h64]
  simp [beBytes_length]

/-- zfill is the identity on a list already at the target width. -/
theorem zfillList_of_length (w : ℕ) (l : List Char) (h : l.length = w) :
    zfillList w l = l := by
  simp [zfillList, h]

/-- _point_to_hex produces the 04 tag followed by the two zero-padded
64-character big-endian coordinate blocks. -/
theorem point_to_hex_eq {Point : Type} (px py : Point → Option ℤ) (P : Point)
    (x y : ℤ) (hx : px P = some x) (hy : py P = some y)
    (hx0 : 0 ≤ x) (hxB : x < 2 ^ 256) (hy0 : 0 ≤ y) (hyB : y < 2 ^ 256) :
    point_to_hex px py P = .ok ⟨'0' :: '4' ::
      ((beDigits 64 x.toNat).map hexDigitChar ++
        (beDigits 64 y.toNat).map hexDigitChar)⟩ := by
  have hcx : coordE px P = .ok x := by rw [coordE, hx]
  have hcy : coordE py P = .ok y := by rw [coordE, hy]
  have hbx := bytes_hex_beBytes 32 x.toNat
  have hby := bytes_hex_beBytes 32 y.toNat
  norm_num at hbx hby
  simp only [point_to_hex, hcx, hcy, number_to_string_eq x hx0 hxB,
    number_to_string_eq y hy0 hyB, bind, Except.bind, pure, Except.pure]
  rw [hbx, hby, zfillList_of_length, zfillList_of_length] <;>
    simp [beDigits_length]

/-- Python int(_, 16) recovers the value of a 64-character fixed-width
big-endian digit block. -/
theorem pyIntHexChars_beDigits64 (m : ℕ) (hm : m < 16 ^ 64) :
    pyIntHexChars ((beDigits 64 m).map hexDigitChar) = some (m : ℤ) := by
  have hne : beDigits 64 m ≠ [] := by
    intro hnil
    have := beDigits_length 64 m
    rw [hnil] at this
    simp at this
  rw [pyIntHexChars_digits _ hne (beDigits_lt 64 m), beDigits_foldl 64 m 0 hm]
  simp

/-- _hex_to_point inverts _point_to_hex on the 04-tagged fixed-width
encoding, recovering the raw coordinates and rebuilding the point. -/
theorem hex_to_point_eq {Point : Type} (mk : ℤ → ℤ → Option Point)
    (x y : ℤ) (P : Point)
    (hx0 : 0 ≤ x) (hxB : x < 2 ^ 256) (hy0 : 0 ≤ y) (hyB : y < 2 ^ 256)
    (hmk : mk x y = some P) :
    hex_to_point mk ⟨'0' :: '4' ::
        ((beDigits 64 x.toNat).map hexDigitChar ++
          (beDigits 64 y.toNat).map hexDigitChar)⟩ = .ok (x, y, P) := by
  have h16 : (16 : ℕ) ^ 64 = 2 ^ 256 := by
    rw [show (16 : ℕ) = 2 ^ 4 by norm_num, ← pow_mul]
  have hmx : x.toNat < 16 ^ 64 := by rw [h16]; omega
  have hmy : y.toNat < 16 ^ 64 := by rw [h16]; omega
  have hl1 : ((beDigits 64 x.toNat).map hexDigitChar).length = 64 := by
    simp [beDigits_length]
  have hl2 : ((beDigits 64 y.toNat).map hexDigitChar).length = 64 := by
    simp [beDigits_length]
  rw [hex_to_point]
  rw [if_neg (by
    push_neg
    refine ⟨rfl, ?_⟩
    show ('0' :: '4' :: ((beDigits 64 x.toNat).map hexDigitChar ++
      (beDigits 64 y.toNat).map hexDigitChar)).length = 130
    simp [hl1, hl2])]
  have hdrop2 : (String.mk ('0' :: '4' ::
      ((beDigits 64 x.toNat).map hexDigitChar ++
        (beDigits 64 y.toNat).map hexDigitChar))).data.drop 2 =
      (beDigits 64 x.toNat).map hexDigitChar ++
        (beDigits 64 y.toNat).map hexDigitChar := rfl
  rw [hdrop2]
  have htake : ((beDigits 64 x.toNat).map hexDigitChar ++
      (beDigits 64 y.toNat).map hexDigitChar).take 64 =
      (beDigits 64 x.toNat).map hexDigitChar := List.take_left' hl1
  have hdrop : ((beDigits 64 x.toNat).map hexDigitChar ++
      (beDigits 64 y.toNat).map hexDigitChar).drop 64 =
      (beDigits 64 y.toNat).map hexDigitChar := List.drop_left' hl1
  simp only [htake, hdrop, pyIntHexChars_beDigits64 x.toNat hmx,
    pyIntHexChars_beDigits64 y.toNat hmy,
    Int.toNat_of_nonneg hx0, Int.toNat_of_nonneg hy0, hmk]

/-- Scalar multiples of G only depend on the scalar modulo the order. -/
theorem nsmul_mod_eq {Point : Type} [AddCommGroup Point] (G : Point) (n : ℕ)
    (hG : n • G = 0) (a : ℕ) : (a % n) • G = a • G := by
  conv_rhs => rw [← Nat.div_add_mod a n]
  rw [add_nsmul, mul_nsmul, hG, smul_zero, zero_add]

/-- smulOrd on a natural-number scalar below the order is plain scalar
multiplication. -/
theorem smulOrd_natCast {Point : Type} [AddCommGroup Point] (n : ℕ)
    (a : ℕ) (P : Point) : smulOrd n (a : ℤ) P = (a % n) • P := by
  rw [smulOrd]
  norm_cast

/-- smulOrd on a natural-number scalar below the order is plain scalar
multiplication by that scalar. -/
theorem smulOrd_natCast_lt {Point : Type} [AddCommGroup Point] (n : ℕ)
    (a : ℕ) (P : Point) (h : a < n) : smulOrd n (a : ℤ) P = a • P := by
  rw [smulOrd_natCast, Nat.mod_eq_of_lt h]

/-- compute_challenge succeeds on in-range coordinates and yields the hash
of the serialized transcript reduced modulo the order. -/
theorem compute_challenge_ok (sha : List ℕ → List ℕ) (n : ℕ)
    (cx cy pkx pky : ℤ) (msg : String)
    (hcx0 : 0 ≤ cx) (hcxB : cx < 2 ^ 256) (hcy0 : 0 ≤ cy) (hcyB : cy < 2 ^ 256)
    (hpx0 : 0 ≤ pkx) (hpxB : pkx < 2 ^ 256) (hpy0 : 0 ≤ pky) (hpyB : pky < 2 ^ 256) :
    compute_challenge sha n cx cy pkx pky msg =
      .ok (string_to_number (sha (beBytes 32 cx.toNat ++ beBytes 32 cy.toNat ++
        beBytes 32 pkx.toNat ++ beBytes 32 pky.toNat ++ utf8Bytes msg)) % n) := by
  simp only [compute_challenge, number_to_string_eq cx hcx0 hcxB,
    number_to_string_eq cy hcy0 hcyB, number_to_string_eq pkx hpx0 hpxB,
    number_to_string_eq pky hpy0 hpyB, bind, Except.bind, pure, Except.pure]

/-- C1 (completeness): for every private key sk in [1, n-1] with public key
pk = sk * G and every message m, when the nonce is drawn in [1, n-1] and no
challenge override is supplied, create_proof succeeds and verify_proof
accepts the created proof against _point_to_hex of the public key. -/
theorem c1_completeness {Point : Type} [AddCommGroup Point] (G : Point)
    (n : ℕ) (px py : Point → Option ℤ) (mk : ℤ → ℤ → Option Point)
    (sha : List ℕ → List ℕ) (H : CurveOK G n px py mk)
    (sk r : ℕ) (msg : String)
    (hsk1 : 1 ≤ sk) (hsk2 : sk < n) (hr1 : 1 ≤ r) (hr2 : r < n) :
    ∃ (pd : ZKPProofData) (s : String),
      create_proofE G n px py sha (sk : ℤ) msg r none = .ok pd ∧
      point_to_hex px py (sk • G) = .ok s ∧
      verify_proof G n px py mk sha pd s = true := by
  have hn : 0 < n := by have := H.one_lt_n; omega
  have hC : smulOrd n (r : ℤ) G = r • G := smulOrd_natCast_lt n r G hr2
  have hPk : smulOrd n (sk : ℤ) G = sk • G := smulOrd_natCast_lt n sk G hsk2
  have hCne : r • G ≠ 0 := H.ord_G r (by omega) hr2
  have hPkne : sk • G ≠ 0 := H.ord_G sk (by omega) hsk2
  obtain ⟨cx, hcx⟩ := Option.ne_none_iff_exists'.mp
    (fun h => hCne ((H.px_eq_none _).mp h))
  obtain ⟨cy, hcy⟩ := Option.ne_none_iff_exists'.mp
    (fun h => hCne ((H.py_eq_none _).mp h))
  obtain ⟨pkx, hpkx⟩ := Option.ne_none_iff_exists'.mp
    (fun h => hPkne ((H.px_eq_none _).mp h))
  obtain ⟨pky, hpky⟩ := Option.ne_none_iff_exists'.mp
    (fun h => hPkne ((H.py_eq_none _).mp h))
  have hcxB := H.px_bound _ _ hcx
  have hcyB := H.py_bound _ _ hcy
  have hpkxB := H.px_bound _ _ hpkx
  have hpkyB := H.py_bound _ _ hpky
  set c : ℕ := string_to_number (sha (beBytes 32 cx.toNat ++ beBytes 32 cy.toNat ++
    beBytes 32 pkx.toNat ++ beBytes 32 pky.toNat ++ utf8Bytes msg)) % n with hc
  have hcn : c < n := Nat.mod_lt _ hn
  have hcomp : compute_challenge sha n cx cy pkx pky msg = .ok c :=
    compute_challenge_ok sha n cx cy pkx pky msg hcxB.1 hcxB.2 hcyB.1 hcyB.2
      hpkxB.1 hpkxB.2 hpkyB.1 hpkyB.2
  have hcreate : create_proofE G n px py sha (sk : ℤ) msg r none =
      .ok ⟨py_hex cx, py_hex cy, py_hex (((r : ℤ) + (c : ℤ) * (sk : ℤ)) % (n : ℤ)),
        py_hex (c : ℤ), msg⟩ := by
    simp only [create_proofE, hC, hPk, coordE, hcx, hcy, hpkx, hpky, hcomp,
      bind, Except.bind, pure, Except.pure]
  have hs : point_to_hex px py (sk • G) = .ok ⟨'0' :: '4' ::
      ((beDigits 64 pkx.toNat).map hexDigitChar ++
        (beDigits 64 pky.toNat).map hexDigitChar)⟩ :=
    point_to_hex_eq px py _ pkx pky hpkx hpky hpkxB.1 hpkxB.2 hpkyB.1 hpkyB.2
  refine ⟨_, _, hcreate, hs, ?_⟩
  set resp : ℤ := ((r : ℤ) + (c : ℤ) * (sk : ℤ)) % (n : ℤ) with hrsp
  have hnz : (n : ℤ) ≠ 0 := by
    simp only [ne_eq, Nat.cast_eq_zero]
    omega
  have hrespNN : 0 ≤ resp := Int.emod_nonneg _ hnz
  have p1 : pyIntHex (py_hex cx) = some cx := pyIntHex_py_hex cx hcxB.1
  have p2 : pyIntHex (py_hex cy) = some cy := pyIntHex_py_hex cy hcyB.1
  have p3 : pyIntHex (py_hex resp) = some resp := pyIntHex_py_hex resp hrespNN
  have p4 : pyIntHex (py_hex (c : ℤ)) = some (c : ℤ) :=
    pyIntHex_py_hex _ (Int.ofNat_nonneg c)
  have hmkC : mk cx cy = some (r • G) := H.mk_canon _ _ _ hcx hcy
  have hhexpt : hex_to_point mk ⟨'0' :: '4' ::
      ((beDigits 64 pkx.toNat).map hexDigitChar ++
        (beDigits 64 pky.toNat).map hexDigitChar)⟩ = .ok (pkx, pky, sk • G) :=
    hex_to_point_eq mk pkx pky _ hpkxB.1 hpkxB.2 hpkyB.1 hpkyB.2
      (H.mk_canon _ _ _ hpkx hpky)
  have hcast : (r : ℤ) + (c : ℤ) * (sk : ℤ) = ((r + c * sk : ℕ) : ℤ) := by
    push_cast
    ring
  have hleft : smulOrd n resp G = r • G + c • (sk • G) := by
    rw [smulOrd, hrsp, Int.emod_emod_of_dvd _ dvd_rfl, hcast, ← Int.natCast_mod,
      Int.toNat_natCast, nsmul_mod_eq G n H.n_smul, add_nsmul, mul_comm c sk,
      mul_nsmul]
  have hright : smulOrd n ((c : ℕ) : ℤ) (sk • G) = c • (sk • G) :=
    smulOrd_natCast_lt n c _ hcn
  rw [verify_proof]
  simp only [verify_proofE, p1, p2, p3, p4, optE, mkE, hmkC, hhexpt, hcomp,
    bind, Except.bind, pure, Except.pure]
  rw [if_neg (show ¬ ((c : ℤ) ≠ (c : ℤ)) by simp)]
  simp only [hleft, hright]
  rw [if_neg (by
    push_neg
    exact ⟨rfl, rfl⟩)]

/-- The concrete instance satisfies all the curve-layer facts. -/
theorem toy_curve_ok : CurveOK (1 : ZMod 5) 5 pxT pyT mkT := by
  have hbig : (4 : ℤ) < 2 ^ 256 := by norm_num
  constructor
  · decide
  · decide
  · intro k h1 h2
    interval_cases k <;> decide
  · decide
  · decide
  · intro P x h
    unfold pxT at h
    split_ifs at h with h0
    obtain rfl : (P.val : ℤ) = x := Option.some.inj h
    have hv : P.val < 5 := ZMod.val_lt P
    constructor
    · positivity
    · have : (P.val : ℤ) ≤ 4 := by omega
      omega
  · intro P y h
    unfold pyT at h
    split_ifs at h with h0
    obtain rfl : (0 : ℤ) = y := Option.some.inj h
    constructor
    · omega
    · omega
  · have key : ∀ P : ZMod 5, P ≠ 0 → mkT (P.val : ℤ) 0 = some P := by decide
    intro P x y hx hy
    unfold pxT at hx
    unfold pyT at hy
    split_ifs at hx hy with h0
    obtain rfl : (P.val : ℤ) = x := Option.some.inj hx
    obtain rfl : (0 : ℤ) = y := Option.some.inj hy
    exact key P h0

/-- An exception anywhere inside verify_proof is reported as False. -/
theorem verify_proof_false_of_err {Point : Type} [AddCommGroup Point]
    (G : Point) (n : ℕ) (px py : Point → Option ℤ) (mk : ℤ → ℤ → Option Point)
    (sha : List ℕ → List ℕ) (pd : ZKPProofData) (pkHex : String) (e : PyError)
    (h : verify_proofE G n px py mk sha pd pkHex = .error e) :
    verify_proof G n px py mk sha pd pkHex = false := by
  rw [verify_proof, h]

/-- verify_proof can only avoid returning False by passing every decoding
step; if the result is False under every fully decoded scenario, it is
False outright. -/
theorem verify_proof_false_cases {Point : Type} [AddCommGroup Point]
    (G : Point) (n : ℕ) (px py : Point → Option ℤ) (mk : ℤ → ℤ → Option Point)
    (sha : List ℕ → List ℕ) (pd : ZKPProofData) (pkHex : String)
    (h : ∀ (cx cy : ℤ) (C : Point) (resp chal : ℤ) (pkx pky : ℤ) (Pk : Point)
      (expected : ℕ),
      pyIntHex pd.commitment_x = some cx →
      pyIntHex pd.commitment_y = some cy →
      mk cx cy = some C →
      pyIntHex pd.response = some resp →
      pyIntHex pd.challenge = some chal →
      hex_to_point mk pkHex = .ok (pkx, pky, Pk) →
      compute_challenge sha n cx cy pkx pky pd.message = .ok expected →
      verify_proof G n px py mk sha pd pkHex = false) :
    verify_proof G n px py mk sha pd pkHex = false := by
  cases hcx : pyIntHex pd.commitment_x with
  | none =>
    rw [verify_proof]
    simp [verify_proofE, hcx, optE, bind, Except.bind]
  | some cx =>
  cases hcy : pyIntHex pd.commitment_y with
  | none =>
    rw [verify_proof]
    simp [verify_proofE, hcx, hcy, optE, bind, Except.bind]
  | some cy =>
  cases hmkr : mk cx cy with
  | none =>
    rw [verify_proof]
    simp [verify_proofE, hcx, hcy, hmkr, optE, mkE, bind, Except.bind]
  | some C =>
  cases hresp : pyIntHex pd.response with
  | none =>
    rw [verify_proof]
    simp [verify_proofE, hcx, hcy, hmkr, hresp, optE, mkE, bind, Except.bind]
  | some resp =>
  cases hchal : pyIntHex pd.challenge with
  | none =>
    rw [verify_proof]
    simp [verify_proofE, hcx, hcy, hmkr, hresp, hchal, optE, mkE, bind,
      Except.bind]
  | some chal =>
  cases hpk : hex_to_point mk pkHex with
  | error e =>
    rw [verify_proof]
    simp [verify_proofE, hcx, hcy, hmkr, hresp, hchal, hpk, optE, mkE, bind,
      Except.bind]
  | ok pkt =>
  obtain ⟨pkx, pky, Pk⟩ := pkt
  cases hcc : compute_challenge sha n cx cy pkx pky pd.message with
  | error e =>
    rw [verify_proof]
    simp [verify_proofE, hcx, hcy, hmkr, hresp, hchal, hpk, hcc, optE, mkE,
      bind, Except.bind]
  | ok expected =>
    exact h cx cy C resp chal pkx pky Pk expected hcx hcy hmkr hresp hchal
      hpk hcc

/-- A fully decoded proof whose stated challenge differs from the recomputed
challenge is rejected. -/
theorem verify_proof_false_of_challenge_ne {Point : Type} [AddCommGroup Point]
    (G : Point) (n : ℕ) (px py : Point → Option ℤ) (mk : ℤ → ℤ → Option Point)
    (sha : List ℕ → List ℕ) (pd : ZKPProofData) (pkHex : String)
    (cx cy : ℤ) (C : Point) (resp chal : ℤ) (pkx pky : ℤ) (Pk : Point)
    (expected : ℕ)
    (hcx : pyIntHex pd.commitment_x = some cx)
    (hcy : pyIntHex pd.commitment_y = some cy)
    (hmkr : mk cx cy = some C)
    (hresp : pyIntHex pd.response = some resp)
    (hchal : pyIntHex pd.challenge = some chal)
    (hpk : hex_to_point mk pkHex = .ok (pkx, pky, Pk))
    (hcc : compute_challenge sha n cx cy pkx pky pd.message = .ok expected)
    (hne : chal ≠ (expected : ℤ)) :
    verify_proof G n px py mk sha pd pkHex = false := by
  rw [verify_proof]
  simp only [verify_proofE, hcx, hcy, hmkr, hresp, hchal, hpk, hcc, optE, mkE,
    bind, Except.bind, pure, Except.pure]
  rw [if_pos hne]

/-- Witness for c1_completeness at the concrete instance: order 5, generator
1, private key 2, nonce 3, message "m". -/
theorem c1_completeness_witness :
    ∃ (pd : ZKPProofData) (s : String),
      create_proofE (1 : ZMod 5) 5 pxT pyT shaT ((2 : ℕ) : ℤ) "m" 3 none = .ok pd ∧
      point_to_hex pxT pyT ((2 : ℕ) • (1 : ZMod 5)) = .ok s ∧
      verify_proof (1 : ZMod 5) 5 pxT pyT mkT shaT pd s = true :=
  c1_completeness (1 : ZMod 5) 5 pxT pyT mkT shaT toy_curve_ok 2 3 "m"
    (by decide) (by decide) (by decide) (by decide)

/-- C3 (challenge binding): a proof whose decoded challenge differs from the
recomputed challenge H(commitment, publicKey, message) mod n is rejected by
verify_proof, independently of the group equation (the equation is never
examined in that case). -/
theorem c3_challenge_binding {Point : Type} [AddCommGroup Point] (G : Point)
    (n : ℕ) (px py : Point → Option ℤ) (mk : ℤ → ℤ → Option Point)
    (sha : List ℕ → List ℕ) (pd : ZKPProofData) (pkHex : String)
    (cx cy : ℤ) (C : Point) (resp chal : ℤ) (pkx pky : ℤ) (Pk : Point)
    (expected : ℕ)
    (hcx : pyIntHex pd.commitment_x = some cx)
    (hcy : pyIntHex pd.commitment_y = some cy)
    (hmkr : mk cx cy = some C)
    (hresp : pyIntHex pd.response = some resp)
    (hchal : pyIntHex pd.challenge = some chal)
    (hpk : hex_to_point mk pkHex = .ok (pkx, pky, Pk))
    (hcc : compute_challenge sha n cx cy pkx pky pd.message = .ok expected)
    (hne : chal ≠ (expected : ℤ)) :
    verify_proof G n px py mk sha pd pkHex = false :=
  verify_proof_false_of_challenge_ne G n px py mk sha pd pkHex cx cy C resp
    chal pkx pky Pk expected hcx hcy hmkr hresp hchal hpk hcc hne

/-- 130-character _point_to_hex encoding of the point 2 of the concrete
instance (x = 2, y = 0). -/
def pkHexT : String :=
  ⟨'0' :: '4' :: (List.replicate 62 '0' ++ ['0', '2'] ++ List.replicate 64 '0')⟩

/-- Witness for c3_challenge_binding: the valid proof for nonce 3 with its
challenge field replaced by 0x1 (the recomputed challenge is 0). -/
theorem c3_challenge_binding_witness :
    verify_proof (1 : ZMod 5) 5 pxT pyT mkT shaT
      ⟨"0x3", "0x0", "0x3", "0x1", "m"⟩ pkHexT = false :=
  c3_challenge_binding (1 : ZMod 5) 5 pxT pyT mkT shaT
    ⟨"0x3", "0x0", "0x3", "0x1", "m"⟩ pkHexT 3 0 3 3 1 2 0 2 0
    (by decide) (by decide) (by decide) (by decide) (by decide)
    (by rfl) (by rfl) (by decide)

/-- C4 (total verification): verify_proof returns a plain boolean for every
input, and every structural decoding failure (a non-hexadecimal proof field,
an off-curve commitment point, or a malformed public-key string) yields the
return value false rather than a propagated exception. -/
theorem c4_decode_failure_false {Point : Type} [AddCommGroup Point]
    (G : Point) (n : ℕ) (px py : Point → Option ℤ) (mk : ℤ → ℤ → Option Point)
    (sha : List ℕ → List ℕ) (pd : ZKPProofData) (pkHex : String)
    (h : pyIntHex pd.commitment_x = none ∨
      pyIntHex pd.commitment_y = none ∨
      (∃ cx cy : ℤ, pyIntHex pd.commitment_x = some cx ∧
        pyIntHex pd.commitment_y = some cy ∧ mk cx cy = none) ∨
      pyIntHex pd.response = none ∨
      pyIntHex pd.challenge = none ∨
      (∃ e : PyError, hex_to_point mk pkHex = .error e)) :
    verify_proof G n px py mk sha pd pkHex = false := by
  apply verify_proof_false_cases
  intro cx cy C resp chal pkx pky Pk expected hcx hcy hmkr hresp hchal hpk hcc
  rcases h with h | h | h | h | h | h
  · rw [h] at hcx
    exact Option.noConfusion hcx
  · rw [h] at hcy
    exact Option.noConfusion hcy
  · obtain ⟨x, y, h1, h2, h3⟩ := h
    rw [h1] at hcx
    rw [h2] at hcy
    obtain rfl : x = cx := Option.some.inj hcx
    obtain rfl : y = cy := Option.some.inj hcy
    rw [h3] at hmkr
    exact Option.noConfusion hmkr
  · rw [h] at hresp
    exact Option.noConfusion hresp
  · rw [h] at hchal
    exact Option.noConfusion hchal
  · obtain ⟨e, he⟩ := h
    rw [he] at hpk
    exact Except.noConfusion hpk

/-- Witness for c4_decode_failure_false: a proof whose commitment_x field is
not hexadecimal. -/
theorem c4_decode_failure_false_witness :
    verify_proof (1 : ZMod 5) 5 pxT pyT mkT shaT
      ⟨"zz", "0x0", "0x3", "0x0", "m"⟩ pkHexT = false :=
  c4_decode_failure_false (1 : ZMod 5) 5 pxT pyT mkT shaT
    ⟨"zz", "0x0", "0x3", "0x0", "m"⟩ pkHexT (Or.inl (by decide))

/-- Counterexample to C5: called on a syntactically invalid 129-character
public key, verify_proof returns false to its caller; no error reaches the
caller (the claim asserts an InvalidFormat/ValidationError is raised
instead of returning false). -/
theorem c5_counterexample :
    (⟨'0' :: '4' :: List.replicate 127 '0'⟩ : String).data.length = 129 ∧
    verify_proof (1 : ZMod 5) 5 pxT pyT mkT shaT
      ⟨"0x3", "0x0", "0x3", "0x0", "m"⟩
      ⟨'0' :: '4' :: List.replicate 127 '0'⟩ = false := by
  constructor
  · decide
  · rfl

/-- C5 (amended): _hex_to_point itself raises ValueError on a public key of
the wrong shape (wrong length or missing 04 tag), but verify_proof catches
the exception internally and returns false to the caller rather than
propagating it. -/
theorem c5_amended {Point : Type} [AddCommGroup Point] (G : Point) (n : ℕ)
    (px py : Point → Option ℤ) (mk : ℤ → ℤ → Option Point)
    (sha : List ℕ → List ℕ) (pd : ZKPProofData) (s : String)
    (h : ¬ strStartsWith04 s = true ∨ s.data.length ≠ 130) :
    hex_to_point mk s = .error .valueError ∧
    verify_proof G n px py mk sha pd s = false := by
  have hpt : hex_to_point mk s = .error PyError.valueError := by
    rw [hex_to_point, if_pos h]
  refine ⟨hpt, ?_⟩
  apply verify_proof_false_cases
  intro cx cy C resp chal pkx pky Pk expected hcx hcy hmkr hresp hchal hpk hcc
  rw [hpt] at hpk
  exact Except.noConfusion hpk

/-- Witness for c5_amended: the 129-character public key. -/
theorem c5_amended_witness :
    hex_to_point mkT ⟨'0' :: '4' :: List.replicate 127 '0'⟩ =
      .error .valueError ∧
    verify_proof (1 : ZMod 5) 5 pxT pyT mkT shaT
      ⟨"0x3", "0x0", "0x3", "0x0", "m"⟩
      ⟨'0' :: '4' :: List.replicate 127 '0'⟩ = false :=
  c5_amended (1 : ZMod 5) 5 pxT pyT mkT shaT
    ⟨"0x3", "0x0", "0x3", "0x0", "m"⟩
    ⟨'0' :: '4' :: List.replicate 127 '0'⟩ (Or.inr (by decide))

/-- A successfully recomputed challenge is always below the order. -/
theorem compute_challenge_lt (sha : List ℕ → List ℕ) (n : ℕ)
    (cx cy pkx pky : ℤ) (msg : String) (e : ℕ) (hn : 0 < n)
    (h : compute_challenge sha n cx cy pkx pky msg = .ok e) : e < n := by
  simp only [compute_challenge, bind, Except.bind] at h
  cases h1 : number_to_string cx with
  | error a => rw [h1] at h; exact Except.noConfusion h
  | ok b1 =>
  rw [h1] at h
  cases h2 : number_to_string cy with
  | error a => rw [h2] at h; exact Except.noConfusion h
  | ok b2 =>
  rw [h2] at h
  cases h3 : number_to_string pkx with
  | error a => rw [h3] at h; exact Except.noConfusion h
  | ok b3 =>
  rw [h3] at h
  cases h4 : number_to_string pky with
  | error a => rw [h4] at h; exact Except.noConfusion h
  | ok b4 =>
  rw [h4] at h
  simp only [pure, Except.pure] at h
  obtain rfl := (Except.ok.inj h)
  exact Nat.mod_lt _ hn

/-- Counterexample to C6: at the concrete instance the proof with response
field 0x8 decodes to the scalar 8, which is not below the order 5, yet
verify_proof accepts it (the response enters the equation reduced modulo
the order). -/
theorem c6_counterexample :
    pyIntHex "0x8" = some 8 ∧ ¬ ((8 : ℤ) < (5 : ℤ)) ∧
    verify_proof (1 : ZMod 5) 5 pxT pyT mkT shaT
      ⟨"0x3", "0x0", "0x8", "0x0", "m"⟩ pkHexT = true := by
  refine ⟨by decide, by decide, by rfl⟩

/-- C6 (amended): the challenge scalar is effectively range-checked — any
proof whose decoded challenge is at least n is rejected, since the
recomputed challenge is reduced modulo n — but the response scalar is not
range-checked: responses of n or more congruent to a valid response are
accepted (see the counterexample). -/
theorem c6_amended {Point : Type} [AddCommGroup Point] (G : Point) (n : ℕ)
    (px py : Point → Option ℤ) (mk : ℤ → ℤ → Option Point)
    (sha : List ℕ → List ℕ) (pd : ZKPProofData) (pkHex : String)
    (chal : ℤ) (hn : 0 < n)
    (hchal : pyIntHex pd.challenge = some chal)
    (hge : (n : ℤ) ≤ chal) :
    verify_proof G n px py mk sha pd pkHex = false := by
  apply verify_proof_false_cases
  intro cx cy C resp chal2 pkx pky Pk expected hcx hcy hmkr hresp hchal2 hpk hcc
  obtain rfl : chal = chal2 := by
    rw [hchal] at hchal2
    exact Option.some.inj hchal2
  have hlt : expected < n := compute_challenge_lt sha n cx cy pkx pky
    pd.message expected hn hcc
  refine verify_proof_false_of_challenge_ne G n px py mk sha pd pkHex cx cy C
    resp chal pkx pky Pk expected hcx hcy hmkr hresp hchal2 hpk hcc ?_
  have : (expected : ℤ) < (n : ℤ) := by exact_mod_cast hlt
  omega

/-- Witness for c6_amended: a proof with challenge field 0x7, decoding to 7,
at least the order 5. -/
theorem c6_amended_witness :
    verify_proof (1 : ZMod 5) 5 pxT pyT mkT shaT
      ⟨"0x3", "0x0", "0x3", "0x7", "m"⟩ pkHexT = false :=
  c6_amended (1 : ZMod 5) 5 pxT pyT mkT shaT
    ⟨"0x3", "0x0", "0x3", "0x7", "m"⟩ pkHexT 7 (by decide) (by decide)
    (by decide)

/-- Counterexample to C2: a dictionary with none of the Schnorr fields and
non-empty single-element proof and public_signals arrays is REJECTED
(verify_zkp_proof returns false), because the legacy parser requires at
least two elements in each array; the claim asserts acceptance for any
non-empty arrays. -/
theorem c2_counterexample :
    (["0x1"] : List String) ≠ [] ∧
    verify_zkp_proof (1 : ZMod 5) 5 pxT pyT mkT shaT
      ⟨none, none, none, none, none, some ["0x1"], some ["0x1"], false⟩
      "pk" = false := by
  refine ⟨by decide, by rfl⟩

/-- C2 (amended): for every public key and every proof dictionary that
lacks the Schnorr fields and carries proof and public_signals arrays with
at least two elements each, verify_zkp_proof returns true without any
cryptographic check on their contents (the theorem holds for every group,
hash, and array entries). -/
theorem c2_amended {Point : Type} [AddCommGroup Point] (G : Point) (n : ℕ)
    (px py : Point → Option ℤ) (mk : ℤ → ℤ → Option Point)
    (sha : List ℕ → List ℕ) (d : PyDict) (pk : String)
    (a0 a1 : String) (ta : List String) (s0 s1 : String) (ts : List String)
    (hcx : d.commitment_x = none)
    (hpa : d.proof = some (a0 :: a1 :: ta))
    (hps : d.public_signals = some (s0 :: s1 :: ts)) :
    verify_zkp_proof G n px py mk sha d pk = true := by
  simp only [verify_zkp_proof, hcx, parse_legacy_proof, hpa, hps,
    Option.isSome_none, Option.isSome_some, Option.getD_some,
    Bool.false_eq_true, if_false]
  simp

/-- Witness for c2_amended at a concrete dictionary. -/
theorem c2_amended_witness :
    verify_zkp_proof (1 : ZMod 5) 5 pxT pyT mkT shaT
      ⟨none, none, none, none, none, some ["0x1", "0x2"],
        some ["0x3", "0x4"], false⟩ "pk" = true :=
  c2_amended (1 : ZMod 5) 5 pxT pyT mkT shaT
    ⟨none, none, none, none, none, some ["0x1", "0x2"],
      some ["0x3", "0x4"], false⟩ "pk" "0x1" "0x2" [] "0x3" "0x4" []
    rfl rfl rfl

/-- C7 (code bug in the sampling range): secrets.randbelow(order) draws
uniformly from [0, n-1], so the draw 0 is possible; at that draw the public
key (or the commitment) is the point at infinity and generate_keypair
(resp. create_proof) raises TypeError instead of returning a key pair with
a private key in [1, n-1]. -/
theorem c7_zero_draw_raises {Point : Type} [AddCommGroup Point] (G : Point)
    (n : ℕ) (px py : Point → Option ℤ) (mk : ℤ → ℤ → Option Point)
    (sha : List ℕ → List ℕ) (H : CurveOK G n px py mk)
    (sk : ℤ) (msg : String) :
    generate_keypairE G n px py 0 = .error .typeError ∧
    create_proofE G n px py sha sk msg 0 none = .error .typeError := by
  have h0 : smulOrd n ((0 : ℕ) : ℤ) G = (0 : Point) := by
    rw [smulOrd_natCast, Nat.zero_mod, zero_nsmul]
  have hpx0 : px 0 = none := (H.px_eq_none 0).mpr rfl
  constructor
  · simp only [generate_keypairE, h0, point_to_hex, coordE, hpx0, bind,
      Except.bind]
  · simp only [create_proofE, h0, coordE, hpx0, bind, Except.bind]

/-- Witness for c7_zero_draw_raises at the concrete instance. -/
theorem c7_zero_draw_raises_witness :
    generate_keypairE (1 : ZMod 5) 5 pxT pyT 0 = .error .typeError ∧
    create_proofE (1 : ZMod 5) 5 pxT pyT shaT 7 "m" 0 none =
      .error .typeError :=
  c7_zero_draw_raises (1 : ZMod 5) 5 pxT pyT mkT shaT toy_curve_ok 7 "m"

/-- Challenge function as the specification words it: the hash of the
concatenation of the fixed-width 32-byte big-endian serializations of the
commitment coordinates and public-key coordinates with the raw UTF-8
message bytes, interpreted as a big-endian integer and reduced modulo the
order. -/
def compute_challenge_spec (sha : List ℕ → List ℕ) (n : ℕ)
    (cx cy pkx pky : ℕ) (msg : String) : ℕ :=
  string_to_number (sha (beBytes 32 cx ++ beBytes 32 cy ++ beBytes 32 pkx ++
    beBytes 32 pky ++ utf8Bytes msg)) % n

/-- C8: on coordinates of 256-bit width the implemented challenge function
returns exactly the specification value H(R.x || R.y || P.x || P.y ||
utf8(m)) mod n with fixed-width 32-byte big-endian coordinate
serialization; equal inputs give equal challenges since the function is
pure. -/
theorem c8_challenge_eq_spec (sha : List ℕ → List ℕ) (n : ℕ)
    (cx cy pkx pky : ℕ) (msg : String)
    (hx : cx < 2 ^ 256) (hy : cy < 2 ^ 256)
    (hpx : pkx < 2 ^ 256) (hpy : pky < 2 ^ 256) :
    compute_challenge sha n (cx : ℤ) (cy : ℤ) (pkx : ℤ) (pky : ℤ) msg =
      .ok (compute_challenge_spec sha n cx cy pkx pky msg) := by
  rw [compute_challenge_ok sha n cx cy pkx pky msg (Int.ofNat_nonneg cx)
    (by exact_mod_cast hx) (Int.ofNat_nonneg cy) (by exact_mod_cast hy)
    (Int.ofNat_nonneg pkx) (by exact_mod_cast hpx) (Int.ofNat_nonneg pky)
    (by exact_mod_cast hpy)]
  simp [compute_challenge_spec, Int.toNat_natCast]

/-- Witness for c8_challenge_eq_spec at concrete coordinates. -/
theorem c8_challenge_eq_spec_witness :
    compute_challenge shaT 5 ((3 : ℕ) : ℤ) ((0 : ℕ) : ℤ) ((2 : ℕ) : ℤ)
      ((0 : ℕ) : ℤ) "m" = .ok (compute_challenge_spec shaT 5 3 0 2 0 "m") :=
  c8_challenge_eq_spec shaT 5 3 0 2 0 "m" (by norm_num) (by norm_num)
    (by norm_num) (by norm_num)

/-- C9 (round-trip codec): for every finite point P on the curve,
_point_to_hex produces a 130-character string starting with the tag 04
followed by the zero-padded 64-character x block and 64-character y block,
and _hex_to_point maps it back to P. -/
theorem c9_roundtrip {Point : Type} [AddCommGroup Point] (G : Point) (n : ℕ)
    (px py : Point → Option ℤ) (mk : ℤ → ℤ → Option Point)
    (H : CurveOK G n px py mk) (P : Point) (x y : ℤ)
    (hx : px P = some x) (hy : py P = some y) :
    ∃ s : String,
      point_to_hex px py P = .ok s ∧
      s.data.length = 130 ∧
      strStartsWith04 s = true ∧
      s.data = '0' :: '4' :: ((beDigits 64 x.toNat).map hexDigitChar ++
        (beDigits 64 y.toNat).map hexDigitChar) ∧
      hex_to_point mk s = .ok (x, y, P) := by
  have hxB := H.px_bound _ _ hx
  have hyB := H.py_bound _ _ hy
  refine ⟨_, point_to_hex_eq px py P x y hx hy hxB.1 hxB.2 hyB.1 hyB.2,
    ?_, rfl, rfl,
    hex_to_point_eq mk x y P hxB.1 hxB.2 hyB.1 hyB.2 (H.mk_canon P x y hx hy)⟩
  show ('0' :: '4' :: ((beDigits 64 x.toNat).map hexDigitChar ++
    (beDigits 64 y.toNat).map hexDigitChar)).length = 130
  simp [beDigits_length]

/-- Witness for c9_roundtrip at the concrete point 2. -/
theorem c9_roundtrip_witness :
    ∃ s : String,
      point_to_hex pxT pyT (2 : ZMod 5) = .ok s ∧
      s.data.length = 130 ∧
      strStartsWith04 s = true ∧
      s.data = '0' :: '4' :: ((beDigits 64 (2 : ℤ).toNat).map hexDigitChar ++
        (beDigits 64 (0 : ℤ).toNat).map hexDigitChar) ∧
      hex_to_point mkT s = .ok (2, 0, (2 : ZMod 5)) :=
  c9_roundtrip (1 : ZMod 5) 5 pxT pyT mkT toy_curve_ok (2 : ZMod 5) 2 0
    (by decide) (by decide)

/-- C10 (Schnorr precedence): whenever all five Schnorr fields are present
in the proof dictionary, verify_zkp_proof returns exactly the result of the
full Schnorr verification on those fields, and the legacy acceptance branch
is never reached, regardless of any proof/public_signals arrays also
present. -/
theorem c10_schnorr_precedence {Point : Type} [AddCommGroup Point]
    (G : Point) (n : ℕ) (px py : Point → Option ℤ)
    (mk : ℤ → ℤ → Option Point) (sha : List ℕ → List ℕ) (d : PyDict)
    (pk : String) (a b c e f : String)
    (h1 : d.commitment_x = some a) (h2 : d.commitment_y = some b)
    (h3 : d.response = some c) (h4 : d.challenge = some e)
    (h5 : d.message = some f) :
    verify_zkp_proof G n px py mk sha d pk =
      verify_proof G n px py mk sha ⟨a, b, c, e, f⟩ pk := by
  simp only [verify_zkp_proof, h1, h2, h3, h4, h5]

/-- Witness for c10_schnorr_precedence: a dictionary carrying both the five
Schnorr fields and legacy arrays. -/
theorem c10_schnorr_precedence_witness :
    verify_zkp_proof (1 : ZMod 5) 5 pxT pyT mkT shaT
      ⟨some "0x3", some "0x0", some "0x3", some "0x0", some "m",
        some ["0x9", "0x9"], some ["0x9", "0x9"], false⟩ pkHexT =
      verify_proof (1 : ZMod 5) 5 pxT pyT mkT shaT
        ⟨"0x3", "0x0", "0x3", "0x0", "m"⟩ pkHexT :=
  c10_schnorr_precedence (1 : ZMod 5) 5 pxT pyT mkT shaT
    ⟨some "0x3", some "0x0", some "0x3", some "0x0", some "m",
      some ["0x9", "0x9"], some ["0x9", "0x9"], false⟩ pkHexT
    "0x3" "0x0" "0x3" "0x0" "m" rfl rfl rfl rfl rfl
